import Mathlib

/-!
Verification development for django-auto-admin-fieldsets.

The repository consists of one module, `django_auto_admin_fieldsets/admin.py`,
exposing two pure-data operations on Django admin fieldset structures:

* `remove_fields_from_fieldsets(fieldsets, field_name)` strips field names from
  every group of a fieldsets structure;
* `auto_add_fields_to_fieldsets(model, fieldsets, exclude, get_fields,
  placeholder)` replaces a placeholder entry by the model fields not otherwise
  mentioned.

This file gives a shallow embedding of both operations and of the data model
they act on, and proves (or refutes) the specification claims about them.

Modelling conventions:

* a Python fieldsets structure `[(name, {"fields": [...], ...}), ...]` becomes
  a `List FieldGroup`; the `options` mapping keeps its `"fields"` entry in the
  `fields` component and all its other key/value pairs in `extraOptions`
  (both operations carry those through untouched: `{**options, "fields": ...}`
  and `options["fields"] = field_list` leave every other key alone);
* a fields entry is either a plain field name or a grouped tuple/list of
  names, modelled by `FieldRef`; Python's list/tuple distinction is not
  modelled (the code treats both alike when reading and always writes tuples);
* Python sets of field names are modelled as `List String` used through
  membership only;
* distinct groups are assumed to hold distinct `options` dictionary objects,
  so in-place mutation of one group's dictionary is modelled as updating that
  group's position in the list.
-/

namespace AutoAdminFieldsets

/-- A fields entry of a fieldset group: either a plain field name or a grouped
tuple of field names rendered together on one row. -/
inductive FieldRef where
  | name (s : String)
  | group (items : List String)
deriving DecidableEq, Repr

/-- One fieldset group `(name, options)`: its display label, the ordered
`"fields"` sequence of the options mapping, and the remaining key/value pairs
of the options mapping. -/
structure FieldGroup where
  label : Option String
  fields : List FieldRef
  extraOptions : List (String × String)
deriving DecidableEq, Repr

/-- A fieldsets structure: an ordered sequence of groups. -/
abbrev FieldsetList := List FieldGroup

/-- One model field as the code reads it off `model._meta`: its name together
with the `editable` and `auto_created` flags used for filtering. -/
structure ModelField where
  fieldName : String
  editable : Bool
  auto_created : Bool
deriving DecidableEq, Repr

/-- The part of a Django model the code consults: `model._meta.fields` and
`model._meta.many_to_many`. -/
structure Model where
  fields : List ModelField
  many_to_many : List ModelField
deriving DecidableEq, Repr

/-- The names a fields entry mentions: the name itself for a plain entry, the
member names for a grouped tuple. -/
def refNames : FieldRef → List String
  | FieldRef.name s => [s]
  | FieldRef.group items => items

/-! ## remove_fields_from_fieldsets

Embedding of the per-entry body of the inner loop of
`remove_fields_from_fieldsets` (admin.py lines 77-91): a grouped entry is
filtered, dropped when nothing remains, collapsed to a plain name when exactly
one member remains; a plain entry is dropped exactly when it is slated for
removal. -/

/-- One iteration of the entry loop of `remove_fields_from_fieldsets`:
`none` when the entry is skipped by `continue`, `some` of the normalized entry
otherwise. -/
def removeEntry (fields_to_remove : List String) : FieldRef → Option FieldRef
  | FieldRef.name s =>
      if fields_to_remove.contains s then none else some (FieldRef.name s)
  | FieldRef.group items =>
      match items.filter (fun item => !fields_to_remove.contains item) with
      | [] => none
      | [x] => some (FieldRef.name x)
      | x :: y :: rest => some (FieldRef.group (x :: y :: rest))

/-- Embedding of `remove_fields_from_fieldsets` (admin.py lines 50-91): every
group is rebuilt with the filtered field sequence; the group itself is always
appended to `cleaned`, whether or not any fields survive. The Python
`field_name` argument, a single name or any collection of names, is modelled
as the name list `fields_to_remove` used through membership. -/
def remove_fields_from_fieldsets (fieldsets : FieldsetList)
    (fields_to_remove : List String) : FieldsetList :=
  fieldsets.map fun g =>
    { g with fields := g.fields.filterMap (removeEntry fields_to_remove) }

/-! ## auto_add_fields_to_fieldsets

Embedding of `auto_add_fields_to_fieldsets` (admin.py lines 94-163). -/

/-- The editable, non-auto-created field names of a model in declaration order,
many-to-many fields after the ordinary ones (admin.py lines 117-125). -/
def modelFieldNames (model : Model) : List String :=
  ((model.fields ++ model.many_to_many).filter
      (fun f => f.editable && !f.auto_created)).map
    (fun f => f.fieldName)

/-- The field names already specified in the fieldsets (admin.py lines
128-139): every name of every entry of every group, except that an entry equal
to the placeholder contributes nothing. A grouped tuple contributes all its
members, even one that equals the placeholder string. -/
def specifiedFields (placeholder : String) (fieldsets : FieldsetList) :
    List String :=
  fieldsets.flatMap fun g =>
    g.fields.flatMap fun f =>
      match f with
      | FieldRef.name s => if s = placeholder then [] else [s]
      | FieldRef.group items => items

/-- The inner loop of the placeholder scan (admin.py lines 134-135), carried
out on one group's field list: starting from index `i` and accumulator `acc`,
every entry equal to the placeholder overwrites the accumulator with its
index, so the loop ends on the index of the last occurrence. -/
def lastIdxAux (placeholder : String) :
    List FieldRef → Nat → Option Nat → Option Nat
  | [], _, acc => acc
  | f :: rest, i, acc =>
      lastIdxAux placeholder rest (i + 1)
        (if f = FieldRef.name placeholder then some i else acc)

/-- The outer loop of the placeholder scan (admin.py lines 131-139): each
group that contains the placeholder overwrites `placeholder_location` with its
own position and the last in-group index, so the loop ends on the last group
containing the placeholder. -/
def locAux (placeholder : String) :
    FieldsetList → Nat → Option (Nat × Nat) → Option (Nat × Nat)
  | [], _, acc => acc
  | g :: rest, gi, acc =>
      locAux placeholder rest (gi + 1)
        (match lastIdxAux placeholder g.fields 0 none with
         | some fi => some (gi, fi)
         | none => acc)

/-- The final value of `placeholder_location`: position of the honored
placeholder occurrence as a (group index, field index) pair, `none` when the
placeholder occurs nowhere. -/
def placeholderLocation (placeholder : String) (fieldsets : FieldsetList) :
    Option (Nat × Nat) :=
  locAux placeholder fieldsets 0 none

/-- The `available_fields` selection (admin.py lines 142-145): the result of
the `get_fields` callback when one is supplied, the model's field names
otherwise. -/
def availableFields (model : Model) (get_fields : Option (List String)) :
    List String :=
  match get_fields with
  | some fs => fs
  | none => modelFieldNames model

/-- Python's single-character test `f.startswith("_")`: whether the first
character of the string is an underscore. -/
def startsWithUnderscore (f : String) : Bool :=
  match f.data with
  | [] => false
  | c :: _ => c == '_'

/-- The `remaining_fields` comprehension (admin.py lines 148-154), including
its underscore guard exactly as written: a candidate passes when it is neither
specified nor excluded and either does not start with an underscore or is
among the available fields. -/
def remainingFields (available_fields specified_fields exclude : List String) :
    List String :=
  available_fields.filter fun f =>
    !specified_fields.contains f && !exclude.contains f &&
      (!startsWithUnderscore f || available_fields.contains f)

/-- The slice assignment `field_list[placeholder_index : placeholder_index + 1]
= remaining_fields` (admin.py line 161): the entry at the given index is
replaced by the remaining field names. -/
def spliceAt (refs : List FieldRef) (i : Nat) (remaining : List String) :
    List FieldRef :=
  refs.take i ++ remaining.map FieldRef.name ++ refs.drop (i + 1)

/-- Embedding of `auto_add_fields_to_fieldsets` (admin.py lines 94-163),
returning the structure the function returns: when a placeholder location was
recorded, the group at that location carries the spliced field list; otherwise
the input is returned as is. -/
def auto_add_fields_to_fieldsets (model : Model) (fieldsets : FieldsetList)
    (exclude : List String) (get_fields : Option (List String))
    (placeholder : String) : FieldsetList :=
  let specified_fields := specifiedFields placeholder fieldsets
  let available_fields := availableFields model get_fields
  let remaining_fields :=
    remainingFields available_fields specified_fields exclude
  match placeholderLocation placeholder fieldsets with
  | none => fieldsets
  | some (gi, fi) =>
      match fieldsets[gi]? with
      | none => fieldsets
      | some g =>
          fieldsets.set gi
            { g with fields := spliceAt g.fields fi remaining_fields }

/-- The fieldsets structure as the caller observes it through its own
reference once the call returns. The source stores the honored group's
`options` dictionary by reference in `placeholder_location`, executes
`options["fields"] = field_list` on it (admin.py line 162) and then returns
the very input list (line 163), so after the call the caller's structure shows
the honored group with the spliced field list and every other group untouched.
Written here as an index-guided rebuild of the input, independently of
`auto_add_fields_to_fieldsets`. -/
def callerFieldsetsAfterCall (model : Model) (fieldsets : FieldsetList)
    (exclude : List String) (get_fields : Option (List String))
    (placeholder : String) : FieldsetList :=
  let remaining_fields :=
    remainingFields (availableFields model get_fields)
      (specifiedFields placeholder fieldsets) exclude
  match placeholderLocation placeholder fieldsets with
  | none => fieldsets
  | some (gi, fi) =>
      fieldsets.enum.map fun p =>
        if p.1 = gi then { p.2 with fields := spliceAt p.2.fields fi remaining_fields }
        else p.2

/-- The model of the spec's running example and of the repository's test
model: fields title, slug, description, published, featured are editable and
ordinary; id, created_at and updated_at are filtered out by the
editable/auto_created test. -/
def testModel : Model :=
  { fields :=
      [⟨"id", false, true⟩, ⟨"title", true, false⟩, ⟨"slug", true, false⟩,
       ⟨"description", true, false⟩, ⟨"published", true, false⟩,
       ⟨"created_at", false, false⟩, ⟨"updated_at", false, false⟩,
       ⟨"featured", true, false⟩],
    many_to_many := [] }

/-- The fieldsets contain no entry equal to the placeholder. -/
abbrev noPlaceholder (placeholder : String) (fieldsets : FieldsetList) : Prop :=
  ∀ g ∈ fieldsets, FieldRef.name placeholder ∉ g.fields

/-- The remaining-field pool written as a plain ordered set difference,
without the underscore guard. -/
def remainingFieldsDiff (available_fields specified_fields exclude : List String) :
    List String :=
  available_fields.filter fun f =>
    !specified_fields.contains f && !exclude.contains f

/-- Total number of placeholder entries across all groups. -/
def placeholderCount (ph : String) (fs : FieldsetList) : Nat :=
  (fs.map fun g => g.fields.count (FieldRef.name ph)).sum

/-- An entry whose shape filtering cannot change even when nothing is removed:
plain names always keep their shape; a grouped tuple does only when it has at
least two members (a singleton collapses to a plain name, an empty tuple is
dropped). -/
def entryKeepsShape : FieldRef → Bool
  | FieldRef.name _ => true
  | FieldRef.group items => decide (2 ≤ items.length)

/-- No name mentioned anywhere in the fieldsets belongs to the removal set. -/
abbrev mentionsNone (rm : List String) (fs : FieldsetList) : Prop :=
  ∀ g ∈ fs, ∀ f ∈ g.fields, ∀ s ∈ refNames f, s ∉ rm

/-- The field sequence of one group after removal, as section 4.2 of the spec
words it: names in the removal set disappear from plain entries and from
grouped tuples, a grouped tuple left with a single member collapses to that
plain name, a tuple left with no members disappears. Written by structural
recursion, independently of removeEntry. -/
def stripGroupEntries (rm : List String) : List FieldRef → List FieldRef
  | [] => []
  | FieldRef.name s :: rest =>
      if s ∈ rm then stripGroupEntries rm rest
      else FieldRef.name s :: stripGroupEntries rm rest
  | FieldRef.group items :: rest =>
      if (items.filter fun item => decide (item ∉ rm)).length = 0 then
        stripGroupEntries rm rest
      else if (items.filter fun item => decide (item ∉ rm)).length = 1 then
        FieldRef.name ((items.filter fun item => decide (item ∉ rm)).headD "") ::
          stripGroupEntries rm rest
      else
        FieldRef.group (items.filter fun item => decide (item ∉ rm)) ::
          stripGroupEntries rm rest

/-- The removal operation as the spec words it, amended in exactly one point:
every group is kept, a group whose fields are all removed keeping an empty
field sequence instead of being dropped. -/
def removeSpecAmended (rm : List String) (fs : FieldsetList) : FieldsetList :=
  fs.map fun g => { g with fields := stripGroupEntries rm g.fields }

/-! ## The missing readonly parameter

`auto_add_fields_to_fieldsets` is declared with exactly five parameters
(admin.py lines 94-100); the repository's own tests call it with a
`readonly_fields` keyword argument, which that signature rejects. -/

/-- The keyword parameters `auto_add_fields_to_fieldsets` accepts, read off
its signature (admin.py lines 94-100). -/
def autoAddAcceptedKeywords : List String :=
  ["model", "fieldsets", "exclude", "get_fields", "placeholder"]

/-- The keyword arguments the repository's own tests pass to
`auto_add_fields_to_fieldsets` in every test of
tests/testapp/test_auto_admin_fieldsets.py. -/
def testCallKeywords : List String :=
  ["model", "fieldsets", "exclude", "readonly_fields"]

/-- Modelled from the spec: the remaining-field pool with the optional
readonly set also subtracted. Section 4.1 lists an "optional readonly set"
among the expansion inputs and subtracts readonly fields from the remaining
pool, and the repository's tests exercise exactly that behaviour; the
corresponding parameter is missing from `auto_add_fields_to_fieldsets` in
src/django_auto_admin_fieldsets/admin.py. -/
def remainingFieldsWithReadonly
    (available_fields specified_fields exclude readonly_fields : List String) :
    List String :=
  available_fields.filter fun f =>
    !specified_fields.contains f && !exclude.contains f &&
      !readonly_fields.contains f

/-- The fieldsets of the spec's running example and of the repository's
tests: explicit title and slug in a first group, the default placeholder alone
in a second. -/
def exampleFieldsets : FieldsetList :=
  [⟨some "Basic", [FieldRef.name "title", FieldRef.name "slug"], []⟩,
   ⟨some "Extra", [FieldRef.name "__remaining__"], []⟩]

/-- A one-field model used by concrete instances. -/
def oneFieldModel : Model :=
  { fields := [⟨"x", true, false⟩], many_to_many := [] }

/-- A fieldsets structure with the default placeholder in both of its
groups. -/
def twoPlaceholderFieldsets : FieldsetList :=
  [⟨some "A", [FieldRef.name "__remaining__"], []⟩,
   ⟨some "B", [FieldRef.name "__remaining__"], []⟩]

/-! ## Characterization of the placeholder scan

`lastOcc` and `lastLoc` restate the accumulator loops by structural recursion;
the lemmas below identify them with the loop embeddings and record that the
recorded position is the lexicographically last placeholder occurrence. -/

/-- Index of the last entry equal to the placeholder, by structural
recursion. -/
def lastOcc (placeholder : String) : List FieldRef → Option Nat
  | [] => none
  | f :: rest =>
      match lastOcc placeholder rest with
      | some j => some (j + 1)
      | none => if f = FieldRef.name placeholder then some 0 else none

/-- Position of the last placeholder occurrence across the groups, by
structural recursion. -/
def lastLoc (placeholder : String) : FieldsetList → Option (Nat × Nat)
  | [] => none
  | g :: rest =>
      match lastLoc placeholder rest with
      | some (gj, fj) => some (gj + 1, fj)
      | none =>
          match lastOcc placeholder g.fields with
          | some fi => some (0, fi)
          | none => none

/-! ## Sanity examples -/

example :
    remove_fields_from_fieldsets
      [⟨some "g", [FieldRef.name "a", FieldRef.group ["b", "c"]], []⟩] ["b"] =
      [⟨some "g", [FieldRef.name "a", FieldRef.name "c"], []⟩] := by decide

example :
    remove_fields_from_fieldsets [⟨some "g", [FieldRef.name "a"], []⟩] ["a"] =
      [⟨some "g", [], []⟩] := by decide

example : modelFieldNames testModel =
    ["title", "slug", "description", "published", "featured"] := by decide

example :
    auto_add_fields_to_fieldsets testModel
      [⟨some "Basic", [FieldRef.name "title", FieldRef.name "slug"], []⟩,
       ⟨some "Extra", [FieldRef.name "__remaining__"], []⟩]
      [] none "__remaining__" =
      [⟨some "Basic", [FieldRef.name "title", FieldRef.name "slug"], []⟩,
       ⟨some "Extra",
        [FieldRef.name "description", FieldRef.name "published",
         FieldRef.name "featured"], []⟩] := by decide

theorem lastIdxAux_eq (placeholder : String) (l : List FieldRef) :
    ∀ (i : Nat) (acc : Option Nat),
      lastIdxAux placeholder l i acc =
        match lastOcc placeholder l with
        | some j => some (i + j)
        | none => acc := by
  induction l with
  | nil => intro i acc; rfl
  | cons f rest ih =>
    intro i acc
    rw [lastIdxAux, ih]
    rw [lastOcc]
    cases h : lastOcc placeholder rest with
    | some j => simp [Nat.add_assoc, Nat.add_comm 1 j]
    | none =>
      by_cases hf : f = FieldRef.name placeholder <;> simp [hf]

theorem lastIdxAux_zero (placeholder : String) (l : List FieldRef) :
    lastIdxAux placeholder l 0 none = lastOcc placeholder l := by
  rw [lastIdxAux_eq]
  cases lastOcc placeholder l <;> simp

theorem locAux_eq (placeholder : String) (l : FieldsetList) :
    ∀ (gi : Nat) (acc : Option (Nat × Nat)),
      locAux placeholder l gi acc =
        match lastLoc placeholder l with
        | some (gj, fj) => some (gi + gj, fj)
        | none => acc := by
  induction l with
  | nil => intro gi acc; rfl
  | cons g rest ih =>
    intro gi acc
    rw [locAux, ih, lastIdxAux_zero]
    rw [lastLoc]
    cases h : lastLoc placeholder rest with
    | some p =>
      obtain ⟨gj, fj⟩ := p
      simp [Nat.add_assoc, Nat.add_comm 1 gj]
    | none =>
      cases ho : lastOcc placeholder g.fields <;> simp

theorem placeholderLocation_eq_lastLoc (placeholder : String)
    (fieldsets : FieldsetList) :
    placeholderLocation placeholder fieldsets =
      lastLoc placeholder fieldsets := by
  rw [placeholderLocation, locAux_eq]
  cases h : lastLoc placeholder fieldsets with
  | some p => obtain ⟨gj, fj⟩ := p; simp
  | none => rfl

theorem mem_of_getElem_opt {α : Type} {l : List α} {i : Nat} {a : α}
    (h : l[i]? = some a) : a ∈ l := by
  rw [List.getElem?_eq_some] at h
  obtain ⟨hl, rfl⟩ := h
  exact List.getElem_mem hl

theorem lastOcc_eq_none_iff (placeholder : String) (l : List FieldRef) :
    lastOcc placeholder l = none ↔ FieldRef.name placeholder ∉ l := by
  induction l with
  | nil => simp [lastOcc]
  | cons f rest ih =>
    rw [lastOcc]
    cases h : lastOcc placeholder rest with
    | some j =>
      have hmem : FieldRef.name placeholder ∈ rest := by
        by_contra hn
        rw [ih.mpr hn] at h
        cases h
      simp [hmem]
    | none =>
      have hrest : FieldRef.name placeholder ∉ rest := ih.mp h
      by_cases hf : f = FieldRef.name placeholder
      · subst hf
        simp
      · rw [if_neg hf]
        simp only [List.mem_cons]
        constructor
        · rintro _ hc
          rcases hc with hc | hc
          · exact hf hc.symm
          · exact hrest hc
        · intro _
          trivial

theorem lastOcc_spec (placeholder : String) (l : List FieldRef) (j : Nat)
    (h : lastOcc placeholder l = some j) :
    l[j]? = some (FieldRef.name placeholder) ∧
      ∀ k, j < k → l[k]? ≠ some (FieldRef.name placeholder) := by
  induction l generalizing j with
  | nil => simp [lastOcc] at h
  | cons f rest ih =>
    rw [lastOcc] at h
    cases hr : lastOcc placeholder rest with
    | some j' =>
      rw [hr] at h
      obtain rfl : j' + 1 = j := by simpa using h
      obtain ⟨h1, h2⟩ := ih j' hr
      refine ⟨by simpa using h1, ?_⟩
      intro k hk
      cases k with
      | zero => omega
      | succ k' =>
        have : j' < k' := by omega
        simpa using h2 k' this
    | none =>
      rw [hr] at h
      by_cases hf : f = FieldRef.name placeholder
      · rw [if_pos hf] at h
        obtain rfl : 0 = j := by simpa using h
        refine ⟨by simpa using hf, ?_⟩
        intro k hk
        cases k with
        | zero => omega
        | succ k' =>
          have hmem : FieldRef.name placeholder ∉ rest :=
            (lastOcc_eq_none_iff placeholder rest).mp hr
          simp only [List.getElem?_cons_succ]
          intro hc
          exact hmem (mem_of_getElem_opt hc)
      · rw [if_neg hf] at h
        exact absurd h (by simp)

theorem lastLoc_eq_none_iff (placeholder : String) (fs : FieldsetList) :
    lastLoc placeholder fs = none ↔
      ∀ g ∈ fs, FieldRef.name placeholder ∉ g.fields := by
  induction fs with
  | nil => simp [lastLoc]
  | cons g rest ih =>
    rw [lastLoc]
    cases hr : lastLoc placeholder rest with
    | some p =>
      obtain ⟨gj, fj⟩ := p
      simp only []
      constructor
      · intro hc
        cases hc
      · intro hall
        have hrest : ∀ g' ∈ rest, FieldRef.name placeholder ∉ g'.fields :=
          fun g' hg' => hall g' (List.mem_cons_of_mem _ hg')
        rw [ih.mpr hrest] at hr
        cases hr
    | none =>
      have hrest : ∀ g' ∈ rest, FieldRef.name placeholder ∉ g'.fields :=
        ih.mp hr
      cases ho : lastOcc placeholder g.fields with
      | some fi =>
        simp only []
        constructor
        · intro hc
          cases hc
        · intro hall
          have hg : FieldRef.name placeholder ∉ g.fields :=
            hall g (List.mem_cons_self g rest)
          rw [(lastOcc_eq_none_iff placeholder g.fields).mpr hg] at ho
          cases ho
      | none =>
        simp only []
        constructor
        · intro _
          intro g' hg'
          rcases List.mem_cons.mp hg' with rfl | hmem
          · exact (lastOcc_eq_none_iff placeholder g'.fields).mp ho
          · exact hrest g' hmem
        · intro _
          trivial

theorem lastLoc_spec (placeholder : String) (fs : FieldsetList)
    (gi fi : Nat) (h : lastLoc placeholder fs = some (gi, fi)) :
    (∃ g, fs[gi]? = some g ∧ lastOcc placeholder g.fields = some fi) ∧
      ∀ gj, gi < gj → ∀ g', fs[gj]? = some g' →
        FieldRef.name placeholder ∉ g'.fields := by
  induction fs generalizing gi with
  | nil => simp [lastLoc] at h
  | cons g rest ih =>
    rw [lastLoc] at h
    cases hr : lastLoc placeholder rest with
    | some p =>
      obtain ⟨gj', fj'⟩ := p
      rw [hr] at h
      obtain ⟨rfl, rfl⟩ : gj' + 1 = gi ∧ fj' = fi := by simpa using h
      obtain ⟨⟨g0, hg0, ho0⟩, htail⟩ := ih gj' hr
      refine ⟨⟨g0, by simpa using hg0, ho0⟩, ?_⟩
      intro gj hgj g' hget
      cases gj with
      | zero => omega
      | succ gj0 =>
        exact htail gj0 (by omega) g' (by simpa using hget)
    | none =>
      rw [hr] at h
      cases ho : lastOcc placeholder g.fields with
      | some fi0 =>
        rw [ho] at h
        obtain ⟨rfl, rfl⟩ : 0 = gi ∧ fi0 = fi := by simpa using h
        refine ⟨⟨g, by simp, ho⟩, ?_⟩
        intro gj hgj g' hget
        cases gj with
        | zero => omega
        | succ gj0 =>
          have hrest := (lastLoc_eq_none_iff placeholder rest).mp hr
          exact hrest g' (mem_of_getElem_opt (by simpa using hget))
      | none =>
        rw [ho] at h
        cases h

/-! ## Derived facts used by several claims -/

theorem placeholderLocation_eq_none_iff (placeholder : String)
    (fs : FieldsetList) :
    placeholderLocation placeholder fs = none ↔ noPlaceholder placeholder fs := by
  rw [placeholderLocation_eq_lastLoc]
  exact lastLoc_eq_none_iff placeholder fs

theorem auto_add_of_noPlaceholder (model : Model) (fs : FieldsetList)
    (exclude : List String) (gf : Option (List String)) (ph : String)
    (h : noPlaceholder ph fs) :
    auto_add_fields_to_fieldsets model fs exclude gf ph = fs := by
  rw [auto_add_fields_to_fieldsets,
    (placeholderLocation_eq_none_iff ph fs).mpr h]

theorem remainingFields_eq_diff (available specified exclude : List String) :
    remainingFields available specified exclude =
      remainingFieldsDiff available specified exclude := by
  rw [remainingFields, remainingFieldsDiff]
  apply List.filter_congr
  intro f hf
  have hc : available.contains f = true := by simpa using hf
  rw [hc, Bool.or_true, Bool.and_true]

theorem mem_remainingFields (available specified exclude : List String)
    (f : String) :
    f ∈ remainingFields available specified exclude ↔
      f ∈ available ∧ f ∉ specified ∧ f ∉ exclude := by
  rw [remainingFields_eq_diff, remainingFieldsDiff, List.mem_filter]
  simp

theorem callerFieldsetsAfterCall_eq (model : Model) (fs : FieldsetList)
    (exclude : List String) (gf : Option (List String)) (ph : String) :
    callerFieldsetsAfterCall model fs exclude gf ph =
      auto_add_fields_to_fieldsets model fs exclude gf ph := by
  rw [callerFieldsetsAfterCall, auto_add_fields_to_fieldsets]
  cases hloc : placeholderLocation ph fs with
  | none => rfl
  | some p =>
    obtain ⟨gi, fi⟩ := p
    cases hg : fs[gi]? with
    | none =>
      have hlen : fs.length ≤ gi := by
        by_contra hc
        rw [List.getElem?_eq_getElem (by omega)] at hg
        cases hg
      simp only [hg]
      apply List.ext_getElem?
      intro j
      rw [List.getElem?_map, List.getElem?_enum]
      cases hj : fs[j]? with
      | none => simp
      | some gj =>
        have hjlen : j < fs.length := by
          rw [List.getElem?_eq_some] at hj
          exact hj.1
        have hne : j ≠ gi := by omega
        simp [hne]
    | some g =>
      simp only [hg]
      apply List.ext_getElem?
      intro j
      rw [List.getElem?_map, List.getElem?_enum, List.getElem?_set]
      by_cases hji : j = gi
      · subst hji
        have hjlen : j < fs.length := by
          rw [List.getElem?_eq_some] at hg
          exact hg.1
        simp [hg, hjlen]
      · have hne : gi ≠ j := fun hc => hji hc.symm
        rw [if_neg hne]
        cases hj : fs[j]? with
        | none => simp
        | some gj => simp [hji]

theorem auto_add_of_location (model : Model) (fs : FieldsetList)
    (exclude : List String) (gf : Option (List String)) (ph : String)
    (gi fi : Nat) (g : FieldGroup)
    (hloc : placeholderLocation ph fs = some (gi, fi))
    (hg : fs[gi]? = some g) :
    auto_add_fields_to_fieldsets model fs exclude gf ph =
      fs.set gi
        { g with
          fields :=
            spliceAt g.fields fi
              (remainingFields (availableFields model gf)
                (specifiedFields ph fs) exclude) } := by
  rw [auto_add_fields_to_fieldsets, hloc]
  simp only [hg]

theorem getElem_opt_sum_le (ns : List Nat) (i : Nat) (x : Nat)
    (h : ns[i]? = some x) : x ≤ ns.sum := by
  induction ns generalizing i with
  | nil => cases h
  | cons n rest ih =>
    cases i with
    | zero =>
      obtain rfl : n = x := by simpa using h
      simp [List.sum_cons]
    | succ i' =>
      have hx := ih i' (by simpa using h)
      simp only [List.sum_cons]
      omega

theorem getElem_opt_two_sum_le (ns : List Nat) (i j x y : Nat)
    (hne : i ≠ j) (hx : ns[i]? = some x) (hy : ns[j]? = some y) :
    x + y ≤ ns.sum := by
  induction ns generalizing i j with
  | nil => cases hx
  | cons n rest ih =>
    cases i with
    | zero =>
      obtain rfl : n = x := by simpa using hx
      cases j with
      | zero => omega
      | succ j' =>
        have hy' := getElem_opt_sum_le rest j' y (by simpa using hy)
        simp only [List.sum_cons]
        omega
    | succ i' =>
      cases j with
      | zero =>
        obtain rfl : n = y := by simpa using hy
        have hx' := getElem_opt_sum_le rest i' x (by simpa using hx)
        simp only [List.sum_cons]
        omega
      | succ j' =>
        have := ih i' j' (by omega) (by simpa using hx) (by simpa using hy)
        simp only [List.sum_cons]
        omega

theorem count_one_unique (l : List FieldRef) (a : FieldRef)
    (hcount : l.count a = 1) (i j : Nat)
    (hi : l[i]? = some a) (hj : l[j]? = some a) : i = j := by
  induction l generalizing i j with
  | nil => cases hi
  | cons b rest ih =>
    rw [List.count_cons] at hcount
    cases i with
    | zero =>
      cases j with
      | zero => rfl
      | succ j' =>
        obtain rfl : b = a := by simpa using hi
        have hmem : b ∈ rest := mem_of_getElem_opt (by simpa using hj)
        have hpos : 0 < rest.count b := List.count_pos_iff.mpr hmem
        simp at hcount
        omega
    | succ i' =>
      cases j with
      | zero =>
        obtain rfl : b = a := by simpa using hj
        have hmem : b ∈ rest := mem_of_getElem_opt (by simpa using hi)
        have hpos : 0 < rest.count b := List.count_pos_iff.mpr hmem
        simp at hcount
        omega
      | succ j' =>
        by_cases hb : b = a
        · subst hb
          have hmem : b ∈ rest := mem_of_getElem_opt (by simpa using hi)
          have hpos : 0 < rest.count b := List.count_pos_iff.mpr hmem
          simp at hcount
          omega
        · have hcnt : rest.count a = 1 := by
            simp [hb] at hcount
            exact hcount
          have := ih hcnt i' j' (by simpa using hi) (by simpa using hj)
          omega

theorem placeholderCount_unique (ph : String) (fs : FieldsetList)
    (hcount : placeholderCount ph fs = 1)
    (gi fi gj fj : Nat) (g g' : FieldGroup)
    (hg : fs[gi]? = some g) (hf : g.fields[fi]? = some (FieldRef.name ph))
    (hg' : fs[gj]? = some g') (hf' : g'.fields[fj]? = some (FieldRef.name ph)) :
    gi = gj ∧ fi = fj := by
  rw [placeholderCount] at hcount
  have hni : (fs.map fun g0 => g0.fields.count (FieldRef.name ph))[gi]? =
      some (g.fields.count (FieldRef.name ph)) := by
    rw [List.getElem?_map, hg]
    rfl
  have hnj : (fs.map fun g0 => g0.fields.count (FieldRef.name ph))[gj]? =
      some (g'.fields.count (FieldRef.name ph)) := by
    rw [List.getElem?_map, hg']
    rfl
  have hpos : 0 < g.fields.count (FieldRef.name ph) :=
    List.count_pos_iff.mpr (mem_of_getElem_opt hf)
  have hpos' : 0 < g'.fields.count (FieldRef.name ph) :=
    List.count_pos_iff.mpr (mem_of_getElem_opt hf')
  by_cases hgg : gi = gj
  · subst hgg
    rw [hg] at hg'
    obtain rfl : g = g' := Option.some.inj hg'
    refine ⟨rfl, ?_⟩
    have hle := getElem_opt_sum_le _ gi _ hni
    have hcnt1 : g.fields.count (FieldRef.name ph) = 1 := by omega
    exact count_one_unique g.fields _ hcnt1 fi fj hf hf'
  · exfalso
    have := getElem_opt_two_sum_le _ gi gj _ _ hgg hni hnj
    omega

theorem removeEntry_idem (rm : List String) (f f' : FieldRef)
    (h : removeEntry rm f = some f') : removeEntry rm f' = some f' := by
  cases f with
  | name s =>
    simp only [removeEntry] at h
    by_cases hs : rm.contains s
    · rw [if_pos hs] at h
      cases h
    · rw [if_neg hs] at h
      obtain rfl := Option.some.inj h
      simp only [removeEntry]
      rw [if_neg hs]
  | group items =>
    simp only [removeEntry] at h
    cases hfil : items.filter (fun item => !rm.contains item) with
    | nil =>
      rw [hfil] at h
      cases h
    | cons x tail =>
      cases tail with
      | nil =>
        rw [hfil] at h
        obtain rfl := Option.some.inj h
        have hx : x ∈ items.filter (fun item => !rm.contains item) := by
          rw [hfil]
          exact List.mem_cons_self x []
        have hxp := List.of_mem_filter hx
        simp only [removeEntry]
        rw [if_neg (by simpa using hxp)]
      | cons y tail2 =>
        rw [hfil] at h
        obtain rfl := Option.some.inj h
        simp only [removeEntry]
        have hsub : ∀ z ∈ x :: y :: tail2, (!rm.contains z) = true := by
          intro z hz
          have hzf : z ∈ items.filter (fun item => !rm.contains item) := by
            rw [hfil]
            exact hz
          have hzp := List.of_mem_filter hzf
          simpa using hzp
        rw [List.filter_eq_self.mpr hsub]

theorem filterMap_removeEntry_idem (rm : List String) (l : List FieldRef) :
    (l.filterMap (removeEntry rm)).filterMap (removeEntry rm) =
      l.filterMap (removeEntry rm) := by
  induction l with
  | nil => rfl
  | cons f rest ih =>
    rw [List.filterMap_cons]
    cases h : removeEntry rm f with
    | none => exact ih
    | some f' =>
      rw [List.filterMap_cons, removeEntry_idem rm f f' h, ih]

theorem removeEntry_noop (rm : List String) (f : FieldRef)
    (hnames : ∀ s ∈ refNames f, s ∉ rm)
    (hshape : entryKeepsShape f = true) :
    removeEntry rm f = some f := by
  cases f with
  | name s =>
    have hs : s ∉ rm := hnames s (by simp [refNames])
    simp only [removeEntry]
    rw [if_neg (by simpa using hs)]
  | group items =>
    have hfil : items.filter (fun item => !rm.contains item) = items := by
      apply List.filter_eq_self.mpr
      intro z hz
      have : z ∉ rm := hnames z (by simpa [refNames] using hz)
      simpa using this
    simp only [removeEntry, hfil]
    simp only [entryKeepsShape, decide_eq_true_eq] at hshape
    cases items with
    | nil => simp at hshape
    | cons x tail =>
      cases tail with
      | nil => simp at hshape
      | cons y tail2 => rfl

theorem filterMap_removeEntry_noop (rm : List String) (l : List FieldRef)
    (hnames : ∀ f ∈ l, ∀ s ∈ refNames f, s ∉ rm)
    (hshape : ∀ f ∈ l, entryKeepsShape f = true) :
    l.filterMap (removeEntry rm) = l := by
  induction l with
  | nil => rfl
  | cons f rest ih =>
    have hf := List.mem_cons_self f rest
    have hrest := ih (fun f' hf' => hnames f' (List.mem_cons_of_mem _ hf'))
      (fun f' hf' => hshape f' (List.mem_cons_of_mem _ hf'))
    simp only [List.filterMap_cons,
      removeEntry_noop rm f (hnames f hf) (hshape f hf), hrest]

theorem remove_fields_noop (fs : FieldsetList) (rm : List String)
    (hnames : mentionsNone rm fs)
    (hshape : ∀ g ∈ fs, ∀ f ∈ g.fields, entryKeepsShape f = true) :
    remove_fields_from_fieldsets fs rm = fs := by
  induction fs with
  | nil => rfl
  | cons g rest ih =>
    have hg := List.mem_cons_self g rest
    have h1 : g.fields.filterMap (removeEntry rm) = g.fields :=
      filterMap_removeEntry_noop rm g.fields (hnames g hg) (hshape g hg)
    have h2 : remove_fields_from_fieldsets rest rm = rest :=
      ih (fun g' hg' => hnames g' (List.mem_cons_of_mem _ hg'))
        (fun g' hg' => hshape g' (List.mem_cons_of_mem _ hg'))
    rw [remove_fields_from_fieldsets, List.map_cons, h1]
    rw [remove_fields_from_fieldsets] at h2
    rw [h2]

theorem stripGroupEntries_eq (rm : List String) (l : List FieldRef) :
    stripGroupEntries rm l = l.filterMap (removeEntry rm) := by
  induction l with
  | nil => rfl
  | cons f rest ih =>
    cases f with
    | name s =>
      simp only [stripGroupEntries, List.filterMap_cons, removeEntry]
      by_cases hs : s ∈ rm
      · rw [if_pos hs, if_pos (by simpa using hs)]
        exact ih
      · rw [if_neg hs, if_neg (by simpa using hs)]
        rw [ih]
    | group items =>
      have hfilters : (items.filter fun item => decide (item ∉ rm)) =
          items.filter fun item => !rm.contains item := by
        apply List.filter_congr
        intro item _
        simp
      simp only [stripGroupEntries, List.filterMap_cons, removeEntry, hfilters]
      cases hkept : items.filter (fun item => !rm.contains item) with
      | nil =>
        simp only [List.length_nil, if_pos rfl]
        exact ih
      | cons x tail =>
        cases tail with
        | nil =>
          simp only [List.length_cons, List.length_nil]
          rw [if_pos trivial]
          rw [ih]
          rfl
        | cons y tail2 =>
          simp only [List.length_cons]
          rw [if_neg (by omega), if_neg (by omega)]
          rw [ih]

theorem remove_eq_removeSpecAmended (fs : FieldsetList) (rm : List String) :
    remove_fields_from_fieldsets fs rm = removeSpecAmended rm fs := by
  rw [remove_fields_from_fieldsets, removeSpecAmended]
  apply List.map_congr_left
  intro g _
  rw [stripGroupEntries_eq]

theorem mem_splice_of_ne (l : List FieldRef) (fi : Nat) (ref : FieldRef)
    (remaining : List String)
    (hmem : ref ∈ l) (hne : l[fi]? ≠ some ref) :
    ref ∈ spliceAt l fi remaining := by
  rw [spliceAt]
  obtain ⟨j, hj⟩ := List.mem_iff_getElem?.mp hmem
  by_cases hlt : j < fi
  · have h1 : (l.take fi)[j]? = some ref := by
      rw [List.getElem?_take, if_pos hlt]
      exact hj
    exact List.mem_append_left _ (List.mem_append_left _ (mem_of_getElem_opt h1))
  · have hgt : fi < j := by
      rcases Nat.lt_trichotomy j fi with h | h | h
      · omega
      · subst h
        exact absurd hj hne
      · exact h
    have h1 : (l.drop (fi + 1))[j - (fi + 1)]? = some ref := by
      rw [List.getElem?_drop]
      have harith : fi + 1 + (j - (fi + 1)) = j := by omega
      rw [harith, hj]
    exact List.mem_append_right _ (mem_of_getElem_opt h1)

/-! ## Claims -/

/-- C1: per the spec (section 4.1) and the repository's own tests, fieldset
expansion takes an optional readonly set besides the exclusion set and
withholds readonly names from the inserted remaining fields; but the signature
of `auto_add_fields_to_fieldsets` in admin.py has no such parameter, so every
test call, all of which pass `readonly_fields`, is rejected, while the
spec-modelled readonly-aware pool applied to the data of the
exclude-and-readonly test yields exactly the remaining fields that test
expects. -/
theorem auto_add_readonly_missing :
    "readonly_fields" ∉ autoAddAcceptedKeywords ∧
    "readonly_fields" ∈ testCallKeywords ∧
    remainingFieldsWithReadonly (modelFieldNames testModel) ["title", "slug"]
      ["featured"] ["published"] = ["description"] := by
  refine ⟨by decide, by decide, by decide⟩

/-- C2 counterexample: with the default placeholder present in both groups of
`twoPlaceholderFieldsets`, expansion fills the second (last) occurrence and
leaves the first group's placeholder entry literally in place, not the other
way round as the claim states. -/
theorem placeholder_first_not_honored :
    auto_add_fields_to_fieldsets oneFieldModel twoPlaceholderFieldsets []
        none "__remaining__" =
      [⟨some "A", [FieldRef.name "__remaining__"], []⟩,
       ⟨some "B", [FieldRef.name "x"], []⟩] ∧
    auto_add_fields_to_fieldsets oneFieldModel twoPlaceholderFieldsets []
        none "__remaining__" ≠
      [⟨some "A", [FieldRef.name "x"], []⟩,
       ⟨some "B", [FieldRef.name "__remaining__"], []⟩] := by
  refine ⟨by decide, by decide⟩

/-- C2 amended: at most one placeholder occurrence is honored, namely the last
one found in iteration order: whenever the scan records a location, that
location holds a placeholder entry, every placeholder occurrence lies at or
lexicographically before it, and expansion replaces exactly that occurrence
with the remaining fields. -/
theorem placeholder_last_occurrence_honored (model : Model) (fs : FieldsetList)
    (exclude : List String) (gf : Option (List String)) (ph : String)
    (gi fi : Nat)
    (hloc : placeholderLocation ph fs = some (gi, fi)) :
    ∃ g, fs[gi]? = some g ∧
      g.fields[fi]? = some (FieldRef.name ph) ∧
      (∀ gj fj g', fs[gj]? = some g' →
        g'.fields[fj]? = some (FieldRef.name ph) →
        gj < gi ∨ (gj = gi ∧ fj ≤ fi)) ∧
      auto_add_fields_to_fieldsets model fs exclude gf ph =
        fs.set gi
          { g with
            fields :=
              spliceAt g.fields fi
                (remainingFields (availableFields model gf)
                  (specifiedFields ph fs) exclude) } := by
  have hlast := hloc
  rw [placeholderLocation_eq_lastLoc] at hlast
  obtain ⟨⟨g, hg, hocc⟩, htail⟩ := lastLoc_spec ph fs gi fi hlast
  obtain ⟨hidx, hmax⟩ := lastOcc_spec ph g.fields fi hocc
  refine ⟨g, hg, hidx, ?_,
    auto_add_of_location model fs exclude gf ph gi fi g hloc hg⟩
  intro gj fj g' hg' hf'
  rcases Nat.lt_trichotomy gj gi with h | h | h
  · exact Or.inl h
  · subst h
    rw [hg] at hg'
    obtain rfl := Option.some.inj hg'
    refine Or.inr ⟨rfl, ?_⟩
    by_contra hc
    exact (hmax fj (by omega)) hf'
  · exact absurd (mem_of_getElem_opt hf') (htail gj h g' hg')

/-- C2 witness: the amended claim instantiated on `twoPlaceholderFieldsets`,
whose recorded location is the second group. -/
theorem placeholder_last_occurrence_honored_witness :
    placeholderLocation "__remaining__" twoPlaceholderFieldsets = some (1, 0) ∧
    (∃ g, twoPlaceholderFieldsets[1]? = some g ∧
      g.fields[0]? = some (FieldRef.name "__remaining__") ∧
      (∀ gj fj g', twoPlaceholderFieldsets[gj]? = some g' →
        g'.fields[fj]? = some (FieldRef.name "__remaining__") →
        gj < 1 ∨ (gj = 1 ∧ fj ≤ 0)) ∧
      auto_add_fields_to_fieldsets oneFieldModel twoPlaceholderFieldsets []
          none "__remaining__" =
        twoPlaceholderFieldsets.set 1
          { g with
            fields :=
              spliceAt g.fields 0
                (remainingFields (availableFields oneFieldModel none)
                  (specifiedFields "__remaining__" twoPlaceholderFieldsets)
                  []) }) :=
  ⟨by decide,
    placeholder_last_occurrence_honored oneFieldModel twoPlaceholderFieldsets
      [] none "__remaining__" 1 0 (by decide)⟩

/-- C3 counterexample: the input structure is not left unchanged: after a call
on fieldsets containing a placeholder, the caller's own reference shows the
honored group rewritten. -/
theorem caller_input_mutated :
    callerFieldsetsAfterCall oneFieldModel
        [⟨some "A", [FieldRef.name "t", FieldRef.name "__remaining__"], []⟩]
        [] none "__remaining__" ≠
      [⟨some "A", [FieldRef.name "t", FieldRef.name "__remaining__"], []⟩] := by
  decide

/-- C3 amended: expansion returns the very list it was given after mutating
the honored group's options mapping in place: the caller's structure after the
call coincides with the returned structure; the input is unchanged when no
placeholder is found; and even when one is honored, every group other than the
honored one is left untouched. -/
theorem expansion_mutates_in_place (model : Model) (fs : FieldsetList)
    (exclude : List String) (gf : Option (List String)) (ph : String) :
    callerFieldsetsAfterCall model fs exclude gf ph =
      auto_add_fields_to_fieldsets model fs exclude gf ph ∧
    (placeholderLocation ph fs = none →
      callerFieldsetsAfterCall model fs exclude gf ph = fs) ∧
    ∀ gi fi, placeholderLocation ph fs = some (gi, fi) →
      ∀ j, j ≠ gi →
        (callerFieldsetsAfterCall model fs exclude gf ph)[j]? = fs[j]? := by
  refine ⟨callerFieldsetsAfterCall_eq model fs exclude gf ph, ?_, ?_⟩
  · intro hnone
    rw [callerFieldsetsAfterCall, hnone]
  · intro gi fi hloc j hj
    rw [callerFieldsetsAfterCall_eq model fs exclude gf ph]
    have hlast := hloc
    rw [placeholderLocation_eq_lastLoc] at hlast
    obtain ⟨⟨g, hg, _⟩, _⟩ := lastLoc_spec ph fs gi fi hlast
    rw [auto_add_of_location model fs exclude gf ph gi fi g hloc hg]
    rw [List.getElem?_set, if_neg (fun hc => hj hc.symm)]

/-- C3 witness: the amended claim instantiated on a two-group structure whose
first group holds the placeholder; the second group is untouched. -/
theorem expansion_mutates_in_place_witness :
    placeholderLocation "__remaining__"
        [⟨some "A", [FieldRef.name "__remaining__"], []⟩,
         ⟨some "B", [FieldRef.name "t"], []⟩] = some (0, 0) ∧
    (callerFieldsetsAfterCall oneFieldModel
        [⟨some "A", [FieldRef.name "__remaining__"], []⟩,
         ⟨some "B", [FieldRef.name "t"], []⟩] [] none "__remaining__")[1]? =
      [⟨some "A", [FieldRef.name "__remaining__"], []⟩,
       (⟨some "B", [FieldRef.name "t"], []⟩ : FieldGroup)][1]? :=
  ⟨by decide,
    (expansion_mutates_in_place oneFieldModel
        [⟨some "A", [FieldRef.name "__remaining__"], []⟩,
         ⟨some "B", [FieldRef.name "t"], []⟩] [] none "__remaining__").2.2
      0 0 (by decide) 1 (by decide)⟩

/-- C4 counterexample: removing the only field of a group keeps the group with
an empty field sequence instead of dropping the group from the output. -/
theorem empty_group_not_dropped :
    remove_fields_from_fieldsets [⟨some "g", [FieldRef.name "a"], []⟩] ["a"] =
      [⟨some "g", [], []⟩] ∧
    remove_fields_from_fieldsets [⟨some "g", [FieldRef.name "a"], []⟩] ["a"] ≠
      [] := by
  refine ⟨by decide, by decide⟩

/-- C4 amended: removal strips the selected names from every group, including
grouped tuples, collapses a tuple left with one member to that plain name and
drops a tuple left with none, but keeps every group: a group left without
fields stays in the output with an empty field sequence, the number of groups
always being preserved. -/
theorem remove_fields_behaviour (fs : FieldsetList) (rm : List String) :
    remove_fields_from_fieldsets fs rm = removeSpecAmended rm fs ∧
    (remove_fields_from_fieldsets fs rm).length = fs.length := by
  refine ⟨remove_eq_removeSpecAmended fs rm, ?_⟩
  rw [remove_fields_from_fieldsets, List.length_map]

/-- C5: after expansion the explicit fields (grouped-tuple members included),
the inserted remaining fields and the excluded fields together cover every
model field name, and the explicit fields are disjoint from the remaining
pool. -/
theorem explicit_remaining_excluded_cover (model : Model) (fs : FieldsetList)
    (exclude : List String) (ph : String) :
    (∀ f ∈ modelFieldNames model,
      f ∈ specifiedFields ph fs ∨
        f ∈ remainingFields (modelFieldNames model) (specifiedFields ph fs)
              exclude ∨
        f ∈ exclude) ∧
    ∀ f ∈ specifiedFields ph fs,
      f ∉ remainingFields (modelFieldNames model) (specifiedFields ph fs)
            exclude := by
  constructor
  · intro f hf
    by_cases h1 : f ∈ specifiedFields ph fs
    · exact Or.inl h1
    by_cases h2 : f ∈ exclude
    · exact Or.inr (Or.inr h2)
    · exact Or.inr (Or.inl
        ((mem_remainingFields _ _ _ f).mpr ⟨hf, h1, h2⟩))
  · intro f hf hmem
    exact ((mem_remainingFields _ _ _ f).mp hmem).2.1 hf

/-- C5 witness: on the running example, the unspecified, unexcluded field
description falls into one of the three classes (it lands in the remaining
pool), and the explicit field title is not in the remaining pool. -/
theorem explicit_remaining_excluded_cover_witness :
    "description" ∈ modelFieldNames testModel ∧
    ("description" ∈ specifiedFields "__remaining__" exampleFieldsets ∨
      "description" ∈ remainingFields (modelFieldNames testModel)
        (specifiedFields "__remaining__" exampleFieldsets) ["featured"] ∨
      "description" ∈ ["featured"]) ∧
    "title" ∈ specifiedFields "__remaining__" exampleFieldsets ∧
    "title" ∉ remainingFields (modelFieldNames testModel)
      (specifiedFields "__remaining__" exampleFieldsets) ["featured"] :=
  ⟨by decide,
    (explicit_remaining_excluded_cover testModel exampleFieldsets ["featured"]
        "__remaining__").1 "description" (by decide),
    by decide,
    (explicit_remaining_excluded_cover testModel exampleFieldsets ["featured"]
        "__remaining__").2 "title" (by decide)⟩

/-- C6: when the placeholder occurs exactly once, at index fi of group gi,
expansion replaces exactly that entry by the remaining fields in model order,
leaving every other entry of every group in its original relative order. -/
theorem unique_placeholder_spliced_in_place (model : Model) (fs : FieldsetList)
    (exclude : List String) (gf : Option (List String)) (ph : String)
    (gi fi : Nat) (g : FieldGroup)
    (hcount : placeholderCount ph fs = 1)
    (hg : fs[gi]? = some g)
    (hf : g.fields[fi]? = some (FieldRef.name ph)) :
    auto_add_fields_to_fieldsets model fs exclude gf ph =
      fs.set gi
        { g with
          fields :=
            spliceAt g.fields fi
              (remainingFields (availableFields model gf)
                (specifiedFields ph fs) exclude) } := by
  cases hloc : placeholderLocation ph fs with
  | none =>
    rw [placeholderLocation_eq_none_iff] at hloc
    exact absurd (mem_of_getElem_opt hf) (hloc g (mem_of_getElem_opt hg))
  | some p =>
    obtain ⟨gj, fj⟩ := p
    have hlast := hloc
    rw [placeholderLocation_eq_lastLoc] at hlast
    obtain ⟨⟨g', hg', hocc⟩, _⟩ := lastLoc_spec ph fs gj fj hlast
    have hf' := (lastOcc_spec ph g'.fields fj hocc).1
    obtain ⟨hgg, hff⟩ :=
      placeholderCount_unique ph fs hcount gj fj gi fi g' g hg' hf' hg hf
    subst hgg
    subst hff
    rw [hg'] at hg
    obtain rfl := Option.some.inj hg
    exact auto_add_of_location model fs exclude gf ph gj fj g' hloc hg'

/-- C6 witness: the spec's running example: fields title, slug, description,
published, featured with explicit title and slug and an empty exclusion set;
the single placeholder of the Extra group is replaced by description,
published, featured in that order. -/
theorem unique_placeholder_spliced_in_place_witness :
    placeholderCount "__remaining__" exampleFieldsets = 1 ∧
    exampleFieldsets[1]? =
      some ⟨some "Extra", [FieldRef.name "__remaining__"], []⟩ ∧
    auto_add_fields_to_fieldsets testModel exampleFieldsets [] none
        "__remaining__" =
      [⟨some "Basic", [FieldRef.name "title", FieldRef.name "slug"], []⟩,
       ⟨some "Extra",
        [FieldRef.name "description", FieldRef.name "published",
         FieldRef.name "featured"], []⟩] := by
  refine ⟨by decide, by decide, ?_⟩
  have h := unique_placeholder_spliced_in_place testModel exampleFieldsets []
    none "__remaining__" 1 0
    ⟨some "Extra", [FieldRef.name "__remaining__"], []⟩
    (by decide) (by decide) (by decide)
  rw [h]
  decide

/-- C7: a field name listed explicitly in a group stays in its group even when
it also appears in the exclusion set: exclusion only filters the remaining
pool and never deletes an explicitly listed entry from its group. -/
theorem explicit_wins_over_exclude (model : Model) (fs : FieldsetList)
    (exclude : List String) (gf : Option (List String)) (ph : String)
    (gi : Nat) (g : FieldGroup) (ref : FieldRef) (s : String)
    (hg : fs[gi]? = some g) (href : ref ∈ g.fields)
    (hs : s ∈ refNames ref) (hx : s ∈ exclude)
    (hne : ref ≠ FieldRef.name ph) :
    ∃ g', (auto_add_fields_to_fieldsets model fs exclude gf ph)[gi]? =
        some g' ∧
      g'.label = g.label ∧ ref ∈ g'.fields := by
  cases hloc : placeholderLocation ph fs with
  | none =>
    rw [auto_add_fields_to_fieldsets, hloc]
    exact ⟨g, hg, rfl, href⟩
  | some p =>
    obtain ⟨gj, fj⟩ := p
    have hlast := hloc
    rw [placeholderLocation_eq_lastLoc] at hlast
    obtain ⟨⟨g0, hg0, hocc⟩, _⟩ := lastLoc_spec ph fs gj fj hlast
    obtain ⟨hidx, _⟩ := lastOcc_spec ph g0.fields fj hocc
    rw [auto_add_of_location model fs exclude gf ph gj fj g0 hloc hg0]
    by_cases hji : gj = gi
    · subst hji
      rw [hg0] at hg
      obtain rfl := Option.some.inj hg
      have hlen : gj < fs.length := by
        rw [List.getElem?_eq_some] at hg0
        exact hg0.1
      refine ⟨{ g0 with
          fields :=
            spliceAt g0.fields fj
              (remainingFields (availableFields model gf)
                (specifiedFields ph fs) exclude) }, ?_, rfl, ?_⟩
      · rw [List.getElem?_set, if_pos rfl, if_pos hlen]
      · apply mem_splice_of_ne g0.fields fj ref _ href
        rw [hidx]
        intro hc
        exact hne (Option.some.inj hc).symm
    · refine ⟨g, ?_, rfl, href⟩
      rw [List.getElem?_set, if_neg hji]
      exact hg

/-- C7 witness: the field t of the first group is also excluded, yet it stays
in place in the returned structure. -/
theorem explicit_wins_over_exclude_witness :
    [⟨some "A", [FieldRef.name "t"], []⟩,
     (⟨some "B", [FieldRef.name "__remaining__"], []⟩ : FieldGroup)][0]? =
      some ⟨some "A", [FieldRef.name "t"], []⟩ ∧
    (∃ g', (auto_add_fields_to_fieldsets oneFieldModel
        [⟨some "A", [FieldRef.name "t"], []⟩,
         ⟨some "B", [FieldRef.name "__remaining__"], []⟩]
        ["t"] none "__remaining__")[0]? = some g' ∧
      g'.label = (⟨some "A", [FieldRef.name "t"], []⟩ : FieldGroup).label ∧
      FieldRef.name "t" ∈ g'.fields) :=
  ⟨by decide,
    explicit_wins_over_exclude oneFieldModel
      [⟨some "A", [FieldRef.name "t"], []⟩,
       ⟨some "B", [FieldRef.name "__remaining__"], []⟩]
      ["t"] none "__remaining__" 0 ⟨some "A", [FieldRef.name "t"], []⟩
      (FieldRef.name "t") "t" (by decide) (by decide) (by decide) (by decide)
      (by decide)⟩

/-- C8: a fieldsets structure without any placeholder entry is returned
unchanged, and consequently expansion is idempotent once no placeholder
remains: re-expanding an expanded structure that contains no placeholder
changes nothing. -/
theorem expansion_noop_and_idempotent (model : Model) (fs : FieldsetList)
    (exclude : List String) (gf : Option (List String)) (ph : String) :
    (noPlaceholder ph fs →
      auto_add_fields_to_fieldsets model fs exclude gf ph = fs) ∧
    (noPlaceholder ph (auto_add_fields_to_fieldsets model fs exclude gf ph) →
      auto_add_fields_to_fieldsets model
          (auto_add_fields_to_fieldsets model fs exclude gf ph) exclude gf
          ph =
        auto_add_fields_to_fieldsets model fs exclude gf ph) :=
  ⟨auto_add_of_noPlaceholder model fs exclude gf ph,
    auto_add_of_noPlaceholder model _ exclude gf ph⟩

/-- C8 witness: a placeholder-free structure is returned unchanged, and the
expansion of the running example, which contains no further placeholder, is a
fixed point of a second expansion. -/
theorem expansion_noop_and_idempotent_witness :
    noPlaceholder "__remaining__"
      [(⟨some "A", [FieldRef.name "t"], []⟩ : FieldGroup)] ∧
    auto_add_fields_to_fieldsets testModel
        [⟨some "A", [FieldRef.name "t"], []⟩] [] none "__remaining__" =
      [⟨some "A", [FieldRef.name "t"], []⟩] ∧
    noPlaceholder "__remaining__"
      (auto_add_fields_to_fieldsets testModel exampleFieldsets [] none
        "__remaining__") ∧
    auto_add_fields_to_fieldsets testModel
        (auto_add_fields_to_fieldsets testModel exampleFieldsets [] none
          "__remaining__") [] none "__remaining__" =
      auto_add_fields_to_fieldsets testModel exampleFieldsets [] none
        "__remaining__" :=
  ⟨by decide,
    (expansion_noop_and_idempotent testModel
        [⟨some "A", [FieldRef.name "t"], []⟩] [] none "__remaining__").1
      (by decide),
    by decide,
    (expansion_noop_and_idempotent testModel exampleFieldsets [] none
        "__remaining__").2 (by decide)⟩

/-- C9 counterexample: removing a name that occurs nowhere is not a no-op: a
grouped tuple with a single member is collapsed to a plain name even though
nothing was removed. -/
theorem remove_absent_not_noop :
    remove_fields_from_fieldsets
        [⟨some "g", [FieldRef.group ["a"]], []⟩] ["zz"] =
      [⟨some "g", [FieldRef.name "a"], []⟩] ∧
    remove_fields_from_fieldsets
        [⟨some "g", [FieldRef.group ["a"]], []⟩] ["zz"] ≠
      [⟨some "g", [FieldRef.group ["a"]], []⟩] := by
  refine ⟨by decide, by decide⟩

/-- C9 amended: applying the same removal twice yields exactly the result of
applying it once; and removing names absent from the structure returns the
structure unchanged provided every grouped tuple has at least two members (a
singleton grouped tuple is collapsed to a plain name even when the removed
names occur nowhere). -/
theorem removal_idempotent (fs : FieldsetList) (rm : List String) :
    remove_fields_from_fieldsets (remove_fields_from_fieldsets fs rm) rm =
      remove_fields_from_fieldsets fs rm ∧
    (mentionsNone rm fs →
      (∀ g ∈ fs, ∀ f ∈ g.fields, entryKeepsShape f = true) →
      remove_fields_from_fieldsets fs rm = fs) := by
  refine ⟨?_, remove_fields_noop fs rm⟩
  rw [remove_fields_from_fieldsets, remove_fields_from_fieldsets,
    List.map_map]
  apply List.map_congr_left
  intro g _
  simp [Function.comp, filterMap_removeEntry_idem]

/-- C9 witness: on a structure mentioning neither removal target and whose
grouped tuple has two members, removing the absent name zz is a no-op. -/
theorem removal_idempotent_witness :
    mentionsNone ["zz"]
      [⟨some "g", [FieldRef.name "a", FieldRef.group ["b", "c"]], []⟩] ∧
    (∀ g ∈ ([⟨some "g",
        [FieldRef.name "a", FieldRef.group ["b", "c"]], []⟩] : FieldsetList),
      ∀ f ∈ g.fields, entryKeepsShape f = true) ∧
    remove_fields_from_fieldsets
        [⟨some "g", [FieldRef.name "a", FieldRef.group ["b", "c"]], []⟩]
        ["zz"] =
      [⟨some "g", [FieldRef.name "a", FieldRef.group ["b", "c"]], []⟩] :=
  ⟨by decide, by decide,
    (removal_idempotent
        [⟨some "g", [FieldRef.name "a", FieldRef.group ["b", "c"]], []⟩]
        ["zz"]).2 (by decide) (by decide)⟩

/-- C10: the underscore guard of the remaining-field comprehension is vacuous,
every candidate being drawn from the available fields themselves, so the
inserted remaining fields are exactly the available fields, in their given
order, that are neither specified nor excluded: no field is ever withheld for
beginning with an underscore. -/
theorem remaining_is_ordered_diff (available specified exclude : List String) :
    remainingFields available specified exclude =
      remainingFieldsDiff available specified exclude :=
  remainingFields_eq_diff available specified exclude

end AutoAdminFieldsets
